import Mathlib

/-!
Verification of the PlayZork VersionTwo turn-decision pipeline: a shallow
embedding of the map store, the BFS pathfinder, the memory (issue) store,
the deterministic loop-detection rules and the session turn counter, with
theorems checking the natural-language specification against the code.

Conventions of the embedding:
  - SQLite tables are lists of rows; a row is a structure mirroring the
    table schema.  One game session is modelled, so the session_id column
    is dropped.
  - Python dicts that are used in insertion order are association lists.
  - Loops with data-dependent termination take an explicit fuel argument;
    the fuel chosen at the call site is large enough in every reachable
    run, and no theorem below depends on fuel sufficiency.
-/

/- ===================== Map store (mapper_state.py / db_manager.py) ===================== -/

/-- Mirror of the pydantic model LocationTransition in mapper_state.py and of a
row of the map_transitions table. -/
structure LocationTransition where
  from_location : String
  to_location : String
  direction : String
  turn_discovered : Nat
deriving DecidableEq, Repr

/-- DatabaseManager.add_map_transition: INSERT a row unless the UNIQUE
(session_id, from_location, direction) constraint rejects it; the Bool is
True exactly when the row is new. -/
def add_map_transition (store : List LocationTransition)
    (fromL toL dir : String) (turn : Nat) : Bool × List LocationTransition :=
  if store.any (fun t => t.from_location == fromL && t.direction == dir) then
    (false, store)
  else
    (true, store ++ [{ from_location := fromL, to_location := toL,
                       direction := dir, turn_discovered := turn }])

/-- Model of the Python str.upper() call (ASCII case mapping, which covers
every direction string the mapper handles). -/
def pyUpper (s : String) : String :=
  String.mk (s.data.map Char.toUpper)

/-- MapperState.record_movement: normalise the direction to upper case and
insert through the database layer. -/
def record_movement (store : List LocationTransition)
    (fromL toL dir : String) (turn : Nat) : Bool × List LocationTransition :=
  add_map_transition store fromL toL (pyUpper dir) turn

/-- DatabaseManager.get_all_transitions.  The SQL orders rows by
turn_discovered; record_movement is called with the current turn number,
which increases over a session, so the stored order and the returned order
coincide and the store list itself is returned. -/
def get_all_transitions (store : List LocationTransition) : List LocationTransition :=
  store

/-- One call to record_movement with arbitrary arguments. -/
inductive MapStep : List LocationTransition → List LocationTransition → Prop
  | step (store : List LocationTransition) (fromL toL dir : String) (turn : Nat) :
      MapStep store (record_movement store fromL toL dir turn).2

/-- Any finite sequence of record_movement calls. -/
inductive MapStar : List LocationTransition → List LocationTransition → Prop
  | refl (store : List LocationTransition) : MapStar store store
  | tail {s1 s2 s3 : List LocationTransition} :
      MapStar s1 s2 → MapStep s2 s3 → MapStar s1 s3

/-- A map store built from a sequence of record_movement calls starting empty. -/
def MapReachable (store : List LocationTransition) : Prop :=
  MapStar [] store

/- ===================== PathFinder (pathfinder.py) ===================== -/

/-- Adjacency of one location: the list [(direction, destination), ...]. -/
abbrev Adjacency := List (String × String)

/-- The Python dict location -> adjacency, in key-insertion order. -/
abbrev MapGraph := List (String × Adjacency)

/-- Dict lookup. -/
def glookup : MapGraph → String → Option Adjacency
  | [], _ => none
  | (k, v) :: rest, key => if k = key then some v else glookup rest key

/-- The dict update of PathFinder._build_graph: create the key with an empty
list when missing, then append one (direction, destination) pair. -/
def dictAppend : MapGraph → String → String × String → MapGraph
  | [], k, e => [(k, [e])]
  | (k0, v0) :: rest, k, e =>
      if k0 = k then (k0, v0 ++ [e]) :: rest
      else (k0, v0) :: dictAppend rest k e

/-- PathFinder._build_graph: fold over all transitions, skipping the ones
whose destination is the BLOCKED sentinel. -/
def build_graph (ts : List LocationTransition) : MapGraph :=
  ts.foldl
    (fun g t =>
      if t.to_location = "BLOCKED" then g
      else dictAppend g t.from_location (t.direction, t.to_location))
    []

/-- Neighbours of a location; [] when the location is not a key (the Python
code guards the loop with `if current in graph`, which is the same). -/
def adjOf (g : MapGraph) (u : String) : Adjacency :=
  (glookup g u).getD []

/-- The graph has an edge from u to v labelled with direction d. -/
def edgeIn (g : MapGraph) (u d v : String) : Prop :=
  (d, v) ∈ adjOf g u

instance (g : MapGraph) (u d v : String) : Decidable (edgeIn g u d v) := by
  unfold edgeIn; infer_instance

/-- The BFS parent map: entries (node, direction_used, previous_node); the
start node has no entry (Python stores (None, None) for it). -/
abbrev ParentMap := List (String × String × String)

/-- Parent-map lookup. -/
def plookup : ParentMap → String → Option (String × String)
  | [], _ => none
  | (k, d, p) :: rest, key => if k = key then some (d, p) else plookup rest key

/-- Path reconstruction of find_path: follow parent pointers from the target
back to the start.  The Python loop appends directions and reverses at the
end; this recursion produces the same forward list directly.  Fuel bounds
the chain length; the caller passes one more than the parent-map size. -/
def reconstruct (parent : ParentMap) : Nat → String → List String
  | 0, _ => []
  | fuel + 1, node =>
      match plookup parent node with
      | none => []
      | some (d, prev) => reconstruct parent fuel prev ++ [d]

/-- The inner for-loop of the BFS: visit each (direction, neighbour) pair,
enqueueing and recording a parent for the unvisited ones. -/
def process_neighbors (current : String) :
    Adjacency → List String → List String → ParentMap →
    List String × List String × ParentMap
  | [], queue, visited, parent => (queue, visited, parent)
  | (d, n) :: rest, queue, visited, parent =>
      if n ∈ visited then process_neighbors current rest queue visited parent
      else process_neighbors current rest (queue ++ [n]) (visited ++ [n])
        (parent ++ [(n, d, current)])

/-- The BFS while-loop of find_path: dequeue, test for the destination,
otherwise expand the neighbours.  Fuel counts dequeues; every node is
enqueued at most once, so the fuel passed by find_path never runs out. -/
def bfs_loop (g : MapGraph) (toL : String) :
    Nat → List String → List String → ParentMap → Option (List String)
  | 0, _, _, _ => none
  | _ + 1, [], _, _ => none
  | fuel + 1, current :: queue, visited, parent =>
      if current = toL then
        some (reconstruct parent (parent.length + 1) toL)
      else
        match process_neighbors current (adjOf g current) queue visited parent with
        | (q2, vis2, par2) => bfs_loop g toL fuel q2 vis2 par2

/-- PathFinder.find_path: same-location shortcut, missing-start check, BFS.
The Python code binds the built graph to one local variable; it is written
out twice here, which changes nothing.  The fuel bound covers every run:
each BFS iteration dequeues one node, nodes are enqueued at most once each
(only when first visited), and at most 1 + ts.length nodes are ever
enqueued. -/
def find_path (ts : List LocationTransition) (fromL toL : String) :
    Option (List String) :=
  if fromL = toL then some []
  else
    match glookup (build_graph ts) fromL with
    | none => none
    | some _ => bfs_loop (build_graph ts) toL (ts.length + 1) [fromL] [fromL] []

/-- A directed walk in the graph: Walk g u w p holds when following the
directions p from u traverses edges of g and ends at w. -/
inductive Walk (g : MapGraph) : String → String → List String → Prop
  | nil (u : String) : Walk g u u []
  | cons {u v w d : String} {p : List String} :
      edgeIn g u d v → Walk g v w p → Walk g u w (d :: p)

/-- n is the length of a shortest walk from s to t in g. -/
def IsShortest (g : MapGraph) (s t : String) (n : Nat) : Prop :=
  (∃ p, Walk g s t p ∧ p.length = n) ∧ ∀ p, Walk g s t p → n ≤ p.length

/-- The parent chain: PChain par s v k holds when following parent pointers
from v reaches the start s in exactly k steps. -/
inductive PChain (par : ParentMap) (s : String) : String → Nat → Prop
  | root : PChain par s s 0
  | step {v d u : String} {k : Nat} :
      plookup par v = some (d, u) → PChain par s u k → PChain par s v (k + 1)

/-- The BFS loop invariant.  The ghost function f assigns every visited node
its discovery depth; the fields state that discovery depth is the true
shortest distance, that the parent map spells valid graph edges one level
up, that the queue is sorted by depth with spread at most one, and that a
visited node off the queue has had all its neighbours visited. -/
structure BfsInv (g : MapGraph) (s : String) (queue visited : List String)
    (par : ParentMap) (f : String → Nat) : Prop where
  s_vis : s ∈ visited
  vis_nodup : visited.Nodup
  q_nodup : queue.Nodup
  q_sub : ∀ v ∈ queue, v ∈ visited
  s_no_par : plookup par s = none
  keys_sub : ∀ e ∈ par, e.1 ∈ visited ∧ e.2.2 ∈ visited
  keys_nodup : (par.map (fun e => e.1)).Nodup
  par_edge : ∀ e ∈ par, edgeIn g e.2.2 e.2.1 e.1 ∧ f e.1 = f e.2.2 + 1
  vis_chain : ∀ v ∈ visited, PChain par s v (f v)
  vis_dist : ∀ v ∈ visited, IsShortest g s v (f v)
  f_bound : ∀ v ∈ visited, f v ≤ par.length
  q_sorted : queue.Pairwise (fun a b => f a ≤ f b)
  q_spread : ∀ a ∈ queue, ∀ b ∈ queue, f b ≤ f a + 1
  processed : ∀ u ∈ visited, u ∉ queue → ∀ d v, edgeIn g u d v → v ∈ visited

/-- The invariant holding part-way through the neighbour expansion of the
dequeued node c: rest is the unprocessed tail of the adjacency of c, queue
nodes all sit at depth f c or f c + 1, and every neighbour of c outside
rest is already visited. -/
structure MidInv (g : MapGraph) (s c : String) (rest : Adjacency)
    (queue visited : List String) (par : ParentMap) (f : String → Nat) : Prop where
  c_vis : c ∈ visited
  c_notq : c ∉ queue
  s_vis : s ∈ visited
  vis_nodup : visited.Nodup
  q_nodup : queue.Nodup
  q_sub : ∀ v ∈ queue, v ∈ visited
  s_no_par : plookup par s = none
  keys_sub : ∀ e ∈ par, e.1 ∈ visited ∧ e.2.2 ∈ visited
  keys_nodup : (par.map (fun e => e.1)).Nodup
  par_edge : ∀ e ∈ par, edgeIn g e.2.2 e.2.1 e.1 ∧ f e.1 = f e.2.2 + 1
  vis_chain : ∀ v ∈ visited, PChain par s v (f v)
  vis_dist : ∀ v ∈ visited, IsShortest g s v (f v)
  f_bound : ∀ v ∈ visited, f v ≤ par.length
  q_bounds : ∀ a ∈ queue, f c ≤ f a ∧ f a ≤ f c + 1
  q_sorted : queue.Pairwise (fun a b => f a ≤ f b)
  processed_mid : ∀ u ∈ visited, u ∉ queue → u ≠ c → ∀ d v, edgeIn g u d v → v ∈ visited
  c_rest : ∀ d v, edgeIn g c d v → (d, v) ∈ rest ∨ v ∈ visited
  rest_sub : ∀ e ∈ rest, e ∈ adjOf g c

/-- A diamond map with two routes of length 2 from A to D, built by four
record_movement calls. -/
def diamond_map : List LocationTransition :=
  (record_movement
    (record_movement
      (record_movement
        (record_movement [] "A" "B" "NORTH" 1).2
        "A" "C" "SOUTH" 2).2
      "B" "D" "EAST" 3).2
    "C" "D" "WEST" 4).2

/-- A store reached by two record_movement calls out of the same location in
two directions. -/
def map_demo_store : List LocationTransition :=
  (record_movement (record_movement [] "A" "B" "NORTH" 1).2 "A" "C" "SOUTH" 2).2

/-- A store whose only transition marks NORTH out of A as BLOCKED (a failed
movement attempt recorded by MapperState.update_from_turn). -/
def blocked_demo_store : List LocationTransition :=
  (record_movement [] "A" "BLOCKED" "NORTH" 1).2

/- ===================== Memory store (memory_state.py / db_manager.py) ===================== -/

/-- The default whitespace characters removed by Python str.strip (the ASCII
ones; the memory pipeline only handles ASCII content). -/
def is_py_space (c : Char) : Bool :=
  c = ' ' || c = '\t' || c = '\n' || c = '\r' || c = '\x0b' || c = '\x0c'

/-- Leading-whitespace half of str.strip(). -/
def stripLeading (l : List Char) : List Char :=
  l.dropWhile is_py_space

/-- Trailing-whitespace half of str.strip(). -/
def stripTrailing (l : List Char) : List Char :=
  (l.reverse.dropWhile is_py_space).reverse

/-- Model of Python str.strip(): drop leading and trailing whitespace. -/
def pyStrip (s : String) : String :=
  String.mk (stripTrailing (stripLeading s.data))

/-- A row of the memories table.  The timestamp column is omitted (no claim
mentions it); id models the AUTOINCREMENT rowid. -/
structure MemoryRow where
  id : Nat
  turn_number : Nat
  content : String
  importance : Int
  location : String
  score : Int
  moves : Int
  closed : Bool
deriving DecidableEq, Repr

/-- The importance argument of MemoryState.add_memory after the int() attempt:
the LLM may hand back a value that converts to an integer or one that makes
int() raise (recovered to the 500 default). -/
inductive ImpInput
  | int (n : Int)
  | invalid
deriving DecidableEq, Repr

/-- The try/except around int(importance): default 500 on failure. -/
def parse_importance : ImpInput → Int
  | ImpInput.int n => n
  | ImpInput.invalid => 500

/-- importance = max(1, min(1000, importance)). -/
def clamp_importance (v : Int) : Int :=
  max 1 (min 1000 v)

/-- DatabaseManager.check_duplicate_memory: COUNT of rows (open and closed)
with exactly this content is positive. -/
def check_duplicate_memory (rows : List MemoryRow) (content : String) : Bool :=
  rows.any (fun r => r.content == content)

/-- The ORDER BY importance DESC, turn_number DESC comparison of
DatabaseManager.get_top_memories. -/
def rank_before (a b : MemoryRow) : Bool :=
  b.importance < a.importance ||
    (a.importance == b.importance && b.turn_number ≤ a.turn_number)

/-- Insertion into a list sorted by rank_before. -/
def insert_ranked (r : MemoryRow) : List MemoryRow → List MemoryRow
  | [] => [r]
  | x :: xs => if rank_before r x then r :: x :: xs else x :: insert_ranked r xs

/-- Sort by importance DESC, turn_number DESC. -/
def sort_ranked (l : List MemoryRow) : List MemoryRow :=
  l.foldr insert_ranked []

/-- DatabaseManager.get_top_memories with include_closed=False: the open rows,
best-ranked first, capped at the limit. -/
def get_top_memories (rows : List MemoryRow) (limit : Nat) : List MemoryRow :=
  (sort_ranked (rows.filter (fun r => r.closed = false))).take limit

/-- The semantic de-duplication branch of MemoryState.add_memory.  The
MemoryDeduplicator.is_duplicate LLM call is an oracle argument: given the
new (stripped) content and the contents of the top 50 open memories, it
answers whether the new content is a semantic duplicate; the branch is
skipped when the deduplicator is absent or the store holds no open memory. -/
def semantic_duplicate (dedup : Option (String → List String → Bool))
    (rows : List MemoryRow) (content : String) : Bool :=
  match dedup with
  | some judge =>
      let existing := (get_top_memories rows 50).map (fun r => r.content)
      !existing.isEmpty && judge (pyStrip content) existing
  | none => false

/-- The Memory record that MemoryState.add_memory builds and persists:
stripped content, importance defaulted (500) and clamped into [1,1000],
and the open flag set; id models the AUTOINCREMENT rowid. -/
def new_memory_row (rows : List MemoryRow) (content : String)
    (importance : ImpInput) (turn_number : Nat) (location : String)
    (score moves : Int) : MemoryRow :=
  { id := rows.length, turn_number := turn_number, content := pyStrip content,
    importance := clamp_importance (parse_importance importance),
    location := location, score := score, moves := moves, closed := false }

/-- MemoryState.add_memory: refuse empty content, recover malformed
importance, refuse exact duplicates (against open AND closed rows), refuse
semantic duplicates, otherwise persist the new row.  Returns the created
row (None when skipped) and the updated store. -/
def add_memory (rows : List MemoryRow) (dedup : Option (String → List String → Bool))
    (content : String) (importance : ImpInput) (turn_number : Nat)
    (location : String) (score moves : Int) : Option MemoryRow × List MemoryRow :=
  if pyStrip content = "" then (none, rows)
  else if check_duplicate_memory rows (pyStrip content) then (none, rows)
  else if semantic_duplicate dedup rows content then (none, rows)
  else
    (some (new_memory_row rows content importance turn_number location score moves),
      rows ++ [new_memory_row rows content importance turn_number location score moves])

/-- One decay step on the importance value, as run by the SQL UPDATE of
DatabaseManager.decay_all_importances with the default factor 0.9:
CAST(importance * 0.9 AS INTEGER) truncates toward zero, and the WHERE
clause keeps rows with importance <= 0 untouched.  For the integers in
range (0 < v <= 1000) the IEEE-double product v * 0.9 rounds to a value in
(0.9v - 3e-13, 0.9v + 3e-13) whose truncation is exactly floor(9v/10),
which the natural-number division below computes. -/
def decayVal (v : Int) : Int :=
  if 0 < v then ((v.toNat * 9) / 10 : Nat) else v

/-- The per-row effect of the decay UPDATE (only open rows are touched). -/
def decayRow (r : MemoryRow) : MemoryRow :=
  if r.closed = false then { r with importance := decayVal r.importance } else r

/-- DatabaseManager.decay_all_importances with the default factor 0.9 (the
only factor the repository uses); the row count it returns is not modelled. -/
def decay_all_importances (rows : List MemoryRow) : List MemoryRow :=
  rows.map decayRow

/-- N repetitions of the decay UPDATE on the whole store. -/
def decayN : Nat → List MemoryRow → List MemoryRow
  | 0, rows => rows
  | n + 1, rows => decayN n (decay_all_importances rows)

/-- N repetitions of the decay step on one row. -/
def decayRowN : Nat → MemoryRow → MemoryRow
  | 0, r => r
  | n + 1, r => decayRowN n (decayRow r)

/-- N repetitions of the decay step on one importance value. -/
def decayValN : Nat → Int → Int
  | 0, v => v
  | n + 1, v => decayValN n (decayVal v)

/-- DatabaseManager.close_memory: soft delete, closed := 1 where the id
matches and the row is still open (the Bool row count is not modelled). -/
def close_memory (rows : List MemoryRow) (memory_id : Nat) : List MemoryRow :=
  rows.map (fun r =>
    if r.id = memory_id ∧ r.closed = false then { r with closed := true } else r)

/-- Issue-store states reachable from the empty store by any sequence of
add_memory (with any deduplication oracle), decay_all_importances and
close_memory calls. -/
inductive MemReach : List MemoryRow → Prop
  | empty : MemReach []
  | add (rows : List MemoryRow) (dedup : Option (String → List String → Bool))
      (content : String) (importance : ImpInput) (turn_number : Nat)
      (location : String) (score moves : Int) :
      MemReach rows →
      MemReach (add_memory rows dedup content importance turn_number location
        score moves).2
  | decay (rows : List MemoryRow) :
      MemReach rows → MemReach (decay_all_importances rows)
  | close (rows : List MemoryRow) (memory_id : Nat) :
      MemReach rows → MemReach (close_memory rows memory_id)

/-- An open issue of importance 21, for the decay arithmetic claims. -/
def decay_demo_row : MemoryRow :=
  { id := 0, turn_number := 1, content := "puzzle", importance := 21,
    location := "L", score := 0, moves := 0, closed := false }

/-- A store reached by one add_memory call with importance 1 (clamped from
the lower edge of the valid range). -/
def mem_demo_store : List MemoryRow :=
  (add_memory [] none "a" (ImpInput.int 1) 1 "L" 0 0).2

/-- The single row of mem_demo_store. -/
def mem_demo_row : MemoryRow :=
  { id := 0, turn_number := 1, content := "a", importance := 1,
    location := "L", score := 0, moves := 0, closed := false }

/- ===================== Loop detection (loop_detection_agent.py) ===================== -/

/-- One parsed turn as produced by LoopDetectionAgent._parse_turns.  The
parser initialises score to None and never fills it (it only matches the
turn header, Player: and Game: lines), but the field is kept because
_check_deterministic_loops reads it. -/
structure PTurn where
  turn_number : Nat
  location : String
  command : String
  response : String
  score : Option Int
deriving DecidableEq, Repr

/-- Python list[-n:]. -/
def lastN (n : Nat) (l : List α) : List α :=
  l.drop (l.length - n)

/-- The backward scan of deterministic check 1: how many trailing turns sit
at the current location, stopping at the first turn elsewhere. -/
def consecutive_at_current (parsed : List PTurn) (current : String) : Nat :=
  (parsed.reverse.takeWhile (fun t => t.location == current)).length

/-- Number of location changes between consecutive turns (check 2). -/
def location_changes : List String → Nat
  | a :: b :: rest => (if a = b then 0 else 1) + location_changes (b :: rest)
  | _ => 0

/-- Deterministic check 3: some (location, command) pair occurs at least 3
times in the last 5 turns, at the current location, with a non-empty
command.  The Python dict of (location, command) -> turn numbers fires
exactly when such a pair exists. -/
def repeated_action_fires (parsed : List PTurn) (current : String) : Bool :=
  let last5 := lastN 5 parsed
  last5.any (fun t =>
    decide (3 ≤ (last5.filter
        (fun u => u.location == t.location && u.command == t.command)).length) &&
      t.location == current && !(pyStrip t.command == ""))

/-- LoopDetectionAgent._check_deterministic_loops, reduced to the fired loop
type.  The evidence dictionaries, breaking action and justification text
that accompany a detection are deterministic string templating and are not
modelled; available_exits feeds only that templating.  Check 4 keeps the
source's score test verbatim: the code builds
scores = [current_score] * len(parsed_turns) and compares every entry of
its last-8 slice with current_score, so the test never consults the
per-turn score data. -/
def check_deterministic_loops (parsed : List PTurn) (current_location : String)
    (current_score : Int) : Option String :=
  if parsed = [] then none
  else if 5 ≤ consecutive_at_current parsed current_location then
    some "stuck_location"
  else if 6 ≤ parsed.length ∧
      ((lastN 6 parsed).map (fun t => t.location)).dedup.length = 2 ∧
      3 ≤ location_changes ((lastN 6 parsed).map (fun t => t.location)) then
    some "oscillating"
  else if 3 ≤ parsed.length ∧ repeated_action_fires parsed current_location = true then
    some "repeated_action"
  else if 8 ≤ parsed.length ∧
      (lastN 8 (List.replicate parsed.length current_score)).all
        (fun s => s == current_score) = true ∧
      ((lastN 12 parsed).map (fun t => t.location)).dedup.length ≤ 2 then
    some "score_stagnation"
  else none

/-- The slice of LoopDetectionAgent state that the deterministic branch of
research_and_propose sets. -/
structure LoopDetectionState where
  loop_detected : Bool
  loop_type : String
  confidence : Nat
deriving DecidableEq, Repr

/-- The deterministic branch of research_and_propose: when a deterministic
check fires, the agent records the loop with confidence fixed at 98 and
skips the LLM analysis (the LLM fallback is outside this model, hence
none). -/
def deterministic_phase (parsed : List PTurn) (current_location : String)
    (current_score : Int) : Option LoopDetectionState :=
  match check_deterministic_loops parsed current_location current_score with
  | some lt => some { loop_detected := true, loop_type := lt, confidence := 98 }
  | none => none

/- ===================== Session turn numbering (game_session.py) ===================== -/

/-- DatabaseManager.get_latest_turn_number: SELECT MAX(turn_number), None on
an empty turns table.  The argument is the list of persisted turn numbers. -/
def get_latest_turn_number (turns : List Nat) : Option Nat :=
  turns.max?

/-- GameSession.__init__: self.turn_number = last_turn if last_turn is not
None else 0. -/
def initial_turn_number (turns : List Nat) : Nat :=
  (get_latest_turn_number turns).getD 0

/-- The number given to the first turn executed after construction:
GameSession.__play_turn increments self.turn_number before logging. -/
def first_executed_turn (turns : List Nat) : Nat :=
  initial_turn_number turns + 1

/-- Turn numbers 1..n, the persisted keys of a session with n turns. -/
def turn_numbers_upto (n : Nat) : List Nat :=
  (List.range n).map (fun k => k + 1)

/- ===================== Concrete histories for the loop-detection claims ===================== -/

/-- A parsed turn with no score data, as _parse_turns produces. -/
def mkTurn (n : Nat) (loc cmd : String) : PTurn :=
  { turn_number := n, location := loc, command := cmd, response := "", score := none }

/-- Five consecutive turns at the Kitchen (and no score change: the parser
holds no score data). -/
def stuck5_history : List PTurn :=
  [mkTurn 1 "Kitchen" "OPEN DOOR", mkTurn 2 "Kitchen" "NORTH",
   mkTurn 3 "Kitchen" "TAKE SACK", mkTurn 4 "Kitchen" "EAST",
   mkTurn 5 "Kitchen" "CLIMB STAIRS"]

/-- Only four consecutive trailing turns at the Kitchen. -/
def stuck4_history : List PTurn :=
  [mkTurn 1 "Hall" "SOUTH", mkTurn 2 "Kitchen" "OPEN DOOR",
   mkTurn 3 "Kitchen" "NORTH", mkTurn 4 "Kitchen" "TAKE SACK",
   mkTurn 5 "Kitchen" "EAST"]

/-- Scattered revisits: the current location Kitchen appears at turns 1, 8
and 10 of a 10-turn window, separated by ordinary exploration. -/
def scattered_history : List PTurn :=
  [mkTurn 1 "Kitchen" "LOOK", mkTurn 2 "Hall" "WEST", mkTurn 3 "Cellar" "DOWN",
   mkTurn 4 "Attic" "UP", mkTurn 5 "Study" "EAST", mkTurn 6 "Gallery" "NORTH",
   mkTurn 7 "Shaft" "SOUTH", mkTurn 8 "Kitchen" "EAST", mkTurn 9 "Forest" "WEST",
   mkTurn 10 "Kitchen" "TAKE LAMP"]

/-- The ping-pong pattern [A,B,A,B,A,B] over the last six turns. -/
def osc_history : List PTurn :=
  [mkTurn 1 "A" "NORTH", mkTurn 2 "B" "SOUTH", mkTurn 3 "A" "NORTH",
   mkTurn 4 "B" "SOUTH", mkTurn 5 "A" "NORTH", mkTurn 6 "B" "SOUTH"]

/-- Eight turns over two locations whose recorded scores rise every turn:
the spec says score stagnation must not fire here, the code fires it. -/
def varying_score_history : List PTurn :=
  [{ turn_number := 1, location := "A", command := "LOOK", response := "", score := some 0 },
   { turn_number := 2, location := "A", command := "TAKE EGG", response := "", score := some 1 },
   { turn_number := 3, location := "A", command := "OPEN CASE", response := "", score := some 2 },
   { turn_number := 4, location := "B", command := "NORTH", response := "", score := some 3 },
   { turn_number := 5, location := "B", command := "TAKE COIN", response := "", score := some 4 },
   { turn_number := 6, location := "B", command := "READ BOOK", response := "", score := some 5 },
   { turn_number := 7, location := "B", command := "DROP SACK", response := "", score := some 6 },
   { turn_number := 8, location := "A", command := "SOUTH", response := "", score := some 7 }]

/- ********************************************************************* -/
/- ============================ Theorems =============================== -/
/- ********************************************************************* -/

theorem diamond_path_length :
    (find_path diamond_map "A" "D").map List.length = some 2 := by decide

/- ===================== C9: turn numbering resumes ===================== -/

theorem max?_of_mem_of_bound (l : List Nat) (N : Nat) (h1 : N ∈ l)
    (h2 : ∀ x ∈ l, x ≤ N) : l.max? = some N := by
  rw [List.max?_eq_some_iff]
  · exact ⟨h1, h2⟩
  · exact fun a => Nat.le_refl a
  · exact fun a b => max_choice a b
  · exact fun a b c => Nat.max_le

/-- C9: a session constructed over a store already holding turns resumes the
counter from the highest persisted turn number, so the first executed turn
is numbered one above it (turns 1..12 resume at 13); over an empty store the
counter starts at 0 and the first executed turn is numbered 1. -/
theorem claim_C9_turn_numbering (turns : List Nat) (N : Nat) :
    (turns = [] → initial_turn_number turns = 0 ∧ first_executed_turn turns = 1) ∧
    (N ∈ turns → (∀ x ∈ turns, x ≤ N) → first_executed_turn turns = N + 1) ∧
    first_executed_turn (turn_numbers_upto 12) = 13 := by
  refine ⟨?_, ?_, by decide⟩
  · rintro rfl
    exact ⟨rfl, rfl⟩
  · intro h1 h2
    unfold first_executed_turn initial_turn_number get_latest_turn_number
    rw [max?_of_mem_of_bound turns N h1 h2]
    rfl

theorem claim_C9_turn_numbering_witness :
    first_executed_turn [4, 9, 2] = 10 :=
  (claim_C9_turn_numbering [4, 9, 2] 9).2.1 (by decide) (by decide)

/- ===================== C2: stuck_location rule ===================== -/

theorem consecutive_nil (cur : String) : consecutive_at_current [] cur = 0 := rfl

/-- C2: the deterministic stuck_location rule fires exactly when the current
location fills at least 5 consecutive trailing turns of the parsed window
(backward scan stopping at the first other location); any deterministic
detection is reported with confidence 98; 5 consecutive turns (no score
change) trigger it, 4 do not, and scattered revisits at turns 1, 8 and 10
of 10 do not. -/
theorem claim_C2_stuck_location (parsed : List PTurn) (cur : String) (sc : Int) :
    (check_deterministic_loops parsed cur sc = some "stuck_location" ↔
      5 ≤ consecutive_at_current parsed cur) ∧
    (∀ lt, check_deterministic_loops parsed cur sc = some lt →
      deterministic_phase parsed cur sc =
        some { loop_detected := true, loop_type := lt, confidence := 98 }) ∧
    check_deterministic_loops stuck5_history "Kitchen" 0 = some "stuck_location" ∧
    check_deterministic_loops stuck4_history "Kitchen" 0 ≠ some "stuck_location" ∧
    check_deterministic_loops scattered_history "Kitchen" 0 ≠ some "stuck_location" := by
  refine ⟨?_, ?_, by decide, by decide, by decide⟩
  · constructor
    · intro h
      unfold check_deterministic_loops at h
      split_ifs at h with h1 h2 h3 h4 h5 <;> simp_all
    · intro h
      have hne : ¬ parsed = [] := by
        intro he
        rw [he, consecutive_nil] at h
        omega
      unfold check_deterministic_loops
      rw [if_neg hne, if_pos h]
  · intro lt h
    unfold deterministic_phase
    rw [h]

theorem claim_C2_stuck_location_witness :
    check_deterministic_loops stuck5_history "Kitchen" 0 = some "stuck_location" :=
  (claim_C2_stuck_location stuck5_history "Kitchen" 0).1.mpr (by decide)

/- ===================== C3: oscillating rule ===================== -/

/-- C3: with stuck_location not fired and at least 6 parsed turns, the
oscillating rule fires exactly when the last 6 turns hold exactly 2
distinct locations with at least 3 changes between consecutive turns; the
sequence [A,B,A,B,A,B] triggers it. -/
theorem claim_C3_oscillating (parsed : List PTurn) (cur : String) (sc : Int)
    (hstuck : consecutive_at_current parsed cur < 5)
    (hlen : 6 ≤ parsed.length) :
    (check_deterministic_loops parsed cur sc = some "oscillating" ↔
      (((lastN 6 parsed).map (fun t => t.location)).dedup.length = 2 ∧
        3 ≤ location_changes ((lastN 6 parsed).map (fun t => t.location)))) ∧
    check_deterministic_loops osc_history "B" 0 = some "oscillating" := by
  refine ⟨?_, by decide⟩
  have hne : ¬ parsed = [] := by
    intro he
    rw [he] at hlen
    simp at hlen
  constructor
  · intro h
    unfold check_deterministic_loops at h
    split_ifs at h with h1 h2 h3 h4 <;> simp_all
  · intro h
    unfold check_deterministic_loops
    rw [if_neg hne, if_neg (by omega), if_pos ⟨hlen, h.1, h.2⟩]

theorem claim_C3_oscillating_witness :
    check_deterministic_loops osc_history "B" 0 = some "oscillating" :=
  (claim_C3_oscillating osc_history "B" 0 (by decide) (by decide)).2

/- ===================== C4: score_stagnation rule ===================== -/

/-- C4 counterexample: the recorded scores of the last 8 turns change every
turn (0 through 7), yet score_stagnation fires, because the code replaces
every per-turn score with current_score before testing stagnation. -/
theorem claim_C4_counterexample :
    check_deterministic_loops varying_score_history "A" 7 = some "score_stagnation" ∧
    ((lastN 8 varying_score_history).map (fun t => t.score)).dedup.length ≠ 1 := by
  decide

/-- C4 amended: when no earlier deterministic rule fires and at least 8
turns were parsed, score_stagnation fires exactly when at most 2 distinct
locations appear in the last 12 turns; the score side of the rule is
vacuous because the code substitutes current_score for every turn instead
of reading the per-turn scores. -/
theorem claim_C4_score_stagnation (parsed : List PTurn) (cur : String) (sc : Int)
    (h1 : consecutive_at_current parsed cur < 5)
    (h2 : ¬(((lastN 6 parsed).map (fun t => t.location)).dedup.length = 2 ∧
        3 ≤ location_changes ((lastN 6 parsed).map (fun t => t.location))))
    (h3 : repeated_action_fires parsed cur = false)
    (h4 : 8 ≤ parsed.length) :
    check_deterministic_loops parsed cur sc = some "score_stagnation" ↔
      ((lastN 12 parsed).map (fun t => t.location)).dedup.length ≤ 2 := by
  have hne : ¬ parsed = [] := by
    intro he
    rw [he] at h4
    simp at h4
  have hscore : (lastN 8 (List.replicate parsed.length sc)).all
      (fun s => s == sc) = true := by
    rw [List.all_eq_true]
    intro x hx
    have hx2 : x ∈ List.replicate parsed.length sc := by
      unfold lastN at hx
      exact List.mem_of_mem_drop hx
    rw [List.eq_of_mem_replicate hx2]
    exact beq_self_eq_true sc
  constructor
  · intro h
    unfold check_deterministic_loops at h
    split_ifs at h with g1 g2 g3 g4 <;> simp_all
  · intro h
    unfold check_deterministic_loops
    rw [if_neg hne, if_neg (by omega), if_neg (fun hc => h2 ⟨hc.2.1, hc.2.2⟩),
      if_neg (by simp [h3]), if_pos ⟨h4, hscore, h⟩]

theorem claim_C4_score_stagnation_witness :
    check_deterministic_loops varying_score_history "A" 7 = some "score_stagnation" :=
  (claim_C4_score_stagnation varying_score_history "A" 7 (by decide) (by decide)
    (by decide) (by decide)).mpr (by decide)

/- ===================== C5: importance decay arithmetic ===================== -/

theorem clamp_importance_bounds (v : Int) :
    1 ≤ clamp_importance v ∧ clamp_importance v ≤ 1000 := by
  unfold clamp_importance
  constructor
  · exact le_max_left 1 (min 1000 v)
  · exact max_le (by omega) (min_le_left 1000 v)

theorem decayVal_bounds (v : Int) (h0 : 0 ≤ v) (h1 : v ≤ 1000) :
    0 ≤ decayVal v ∧ decayVal v ≤ 1000 := by
  unfold decayVal
  split_ifs with hv
  · constructor
    · exact Int.natCast_nonneg _
    · have hn : v.toNat ≤ 1000 := Int.toNat_le.mpr h1
      have hdiv : v.toNat * 9 / 10 ≤ v.toNat := by
        calc v.toNat * 9 / 10 ≤ v.toNat * 10 / 10 :=
              Nat.div_le_div_right (by omega)
          _ = v.toNat := Nat.mul_div_cancel v.toNat (by omega)
      exact_mod_cast Nat.le_trans hdiv hn
  · exact ⟨h0, h1⟩

/-- C5 counterexample: an open issue of importance 21 reaches importance 16
after two decay calls (21 -> 18 -> 16, truncating each step), while the
claimed formula floor(21 x 0.9^2) = floor(17.01) gives 17. -/
theorem claim_C5_counterexample :
    (decayN 2 [decay_demo_row]).map (fun r => r.importance) = [16] ∧
    (21 * 9 ^ 2) / 10 ^ 2 = 17 ∧ (16 : Int) ≠ 17 := by decide

/-- C5 amended: N decay calls apply the truncating step
v -> floor(v x 0.9) (computed as floor(9v/10), skipping non-positive
values) N times to every open issue independently, and never touch closed
issues.  The N-fold iterate is not floor(initial x 0.9^N) in general. -/
theorem claim_C5_decay (rows : List MemoryRow) (N : Nat) :
    decayN N rows = rows.map (decayRowN N) ∧
    (∀ r : MemoryRow, r.closed = false →
      (decayRowN N r).importance = decayValN N r.importance) ∧
    (∀ r : MemoryRow, r.closed = true → decayRowN N r = r) := by
  refine ⟨?_, ?_, ?_⟩
  · induction N generalizing rows with
    | zero =>
      show rows = rows.map (fun r => r)
      rw [List.map_id']
    | succ n ih =>
      show decayN n (decay_all_importances rows) = _
      rw [ih (decay_all_importances rows)]
      unfold decay_all_importances
      rw [List.map_map]
      rfl
  · intro r
    induction N generalizing r with
    | zero => intro _; rfl
    | succ n ih =>
      intro hr
      show (decayRowN n (decayRow r)).importance = decayValN n (decayVal r.importance)
      have h2 : decayRow r = { r with importance := decayVal r.importance } := by
        unfold decayRow
        rw [if_pos hr]
      rw [h2]
      exact ih _ hr
  · intro r
    induction N generalizing r with
    | zero => intro _; rfl
    | succ n ih =>
      intro hr
      show decayRowN n (decayRow r) = r
      have h2 : decayRow r = r := by
        unfold decayRow
        rw [hr]
        rfl
      rw [h2]
      exact ih r hr

theorem claim_C5_decay_witness :
    (decayRowN 2 decay_demo_row).importance = decayValN 2 (21 : Int) :=
  (claim_C5_decay [decay_demo_row] 2).2.1 decay_demo_row (by decide)

/- ===================== pyStrip lemmas (for C6) ===================== -/

theorem dropWhile_idem (p : Char → Bool) (l : List Char) :
    List.dropWhile p (List.dropWhile p l) = List.dropWhile p l := by
  induction l with
  | nil => rfl
  | cons c t ih =>
    by_cases hc : p c
    · simp [List.dropWhile_cons, hc, ih]
    · simp [List.dropWhile_cons, hc]

theorem stripLeading_idem (l : List Char) :
    stripLeading (stripLeading l) = stripLeading l :=
  dropWhile_idem is_py_space l

theorem stripTrailing_idem (l : List Char) :
    stripTrailing (stripTrailing l) = stripTrailing l := by
  unfold stripTrailing
  rw [List.reverse_reverse, dropWhile_idem]

theorem dropWhile_last_keep (p : Char → Bool) (c : Char) (u : List Char) :
    (∃ w, List.dropWhile p (u ++ [c]) = w ++ [c]) ∨
      List.dropWhile p (u ++ [c]) = [] := by
  induction u with
  | nil =>
    by_cases hc : p c
    · right
      simp [List.dropWhile_cons, hc]
    · left
      exact ⟨[], by simp [List.dropWhile_cons, hc]⟩
  | cons a u ih =>
    by_cases ha : p a
    · rw [List.cons_append, List.dropWhile_cons, if_pos ha]
      exact ih
    · left
      exact ⟨a :: u, by simp [List.dropWhile_cons, ha]⟩

theorem stripTrailing_head (c : Char) (t : List Char) :
    stripTrailing (c :: t) = [] ∨ ∃ t2, stripTrailing (c :: t) = c :: t2 := by
  unfold stripTrailing
  rw [List.reverse_cons]
  rcases dropWhile_last_keep is_py_space c t.reverse with ⟨w, hw⟩ | hw
  · right
    exact ⟨w.reverse, by rw [hw, List.reverse_append]; rfl⟩
  · left
    rw [hw]
    rfl

theorem stripLeading_stripTrailing (l : List Char) (h : stripLeading l = l) :
    stripLeading (stripTrailing l) = stripTrailing l := by
  cases l with
  | nil => rfl
  | cons c t =>
    have hc : is_py_space c = false := by
      by_cases hc : is_py_space c
      · exfalso
        unfold stripLeading at h
        rw [List.dropWhile_cons, if_pos hc] at h
        have hlen := congrArg List.length h
        have hle := (List.dropWhile_sublist (l := t) is_py_space).length_le
        simp at hlen
        omega
      · exact Bool.of_not_eq_true hc
    rcases stripTrailing_head c t with h2 | ⟨t2, h2⟩
    · rw [h2]
      rfl
    · rw [h2]
      unfold stripLeading
      rw [List.dropWhile_cons, if_neg (by simp [hc])]

theorem pyStrip_idem (s : String) : pyStrip (pyStrip s) = pyStrip s := by
  show String.mk (stripTrailing (stripLeading (stripTrailing (stripLeading s.data))))
    = String.mk (stripTrailing (stripLeading s.data))
  rw [stripLeading_stripTrailing (stripLeading s.data) (stripLeading_idem s.data),
    stripTrailing_idem]

/- ===================== memory store lemmas (C6, C7) ===================== -/

theorem add_memory_mem (rows : List MemoryRow)
    (dedup : Option (String → List String → Bool)) (content : String)
    (importance : ImpInput) (turn_number : Nat) (location : String)
    (score moves : Int) (r : MemoryRow)
    (h : r ∈ (add_memory rows dedup content importance turn_number location
        score moves).2) :
    r ∈ rows ∨
      (r.importance = clamp_importance (parse_importance importance) ∧
        r.content = pyStrip content) := by
  unfold add_memory at h
  split_ifs at h
  · exact Or.inl h
  · exact Or.inl h
  · exact Or.inl h
  · rcases List.mem_append.mp h with h2 | h2
    · exact Or.inl h2
    · right
      rw [List.mem_singleton.mp h2]
      exact ⟨rfl, rfl⟩

theorem add_memory_some (rows : List MemoryRow)
    (dedup : Option (String → List String → Bool)) (content : String)
    (importance : ImpInput) (turn_number : Nat) (location : String)
    (score moves : Int) (m : MemoryRow) (rows2 : List MemoryRow)
    (h : (add_memory rows dedup content importance turn_number location
        score moves) = (some m, rows2)) :
    m = new_memory_row rows content importance turn_number location score moves ∧
      rows2 = rows ++ [m] := by
  unfold add_memory at h
  split_ifs at h
  · simp at h
  · simp at h
  · simp at h
  · rw [Prod.mk.injEq] at h
    rcases h with ⟨h1, h2⟩
    injection h1 with h1
    exact ⟨h1.symm, by rw [← h2, h1]⟩

theorem decayRow_content (r : MemoryRow) : (decayRow r).content = r.content := by
  unfold decayRow
  split_ifs <;> rfl

theorem decayRow_closed (r : MemoryRow) : (decayRow r).closed = r.closed := by
  unfold decayRow
  split_ifs <;> rfl

/-- Every content stored through MemoryState.add_memory was stripped on the
way in, so stripping it again changes nothing. -/
theorem mem_content_stripped (rows : List MemoryRow) (h : MemReach rows) :
    ∀ r ∈ rows, pyStrip r.content = r.content := by
  induction h with
  | empty => intro r hr; cases hr
  | add rows dedup content importance turn_number location score moves _ ih =>
    intro r hr
    rcases add_memory_mem rows dedup content importance turn_number location
      _ _ r hr with h2 | ⟨_, h2⟩
    · exact ih r h2
    · rw [h2, pyStrip_idem]
  | decay rows _ ih =>
    intro r hr
    rcases List.mem_map.mp hr with ⟨r0, hr0, he⟩
    rw [← he, decayRow_content]
    exact ih r0 hr0
  | close rows memory_id _ ih =>
    intro r hr
    rcases List.mem_map.mp hr with ⟨r0, hr0, he⟩
    have hc : r.content = r0.content := by
      rw [← he]
      split_ifs <;> rfl
    rw [hc]
    exact ih r0 hr0

/- ===================== C6: add_memory error handling ===================== -/

/-- C6: add_memory is a total function of its (possibly malformed) inputs:
a non-integer importance is replaced by the default 500 and every stored
importance is clamped into [1,1000]; whitespace-only content is not added
and leaves the store unchanged; content identical to any stored issue, open
or closed, is not added and leaves the store unchanged; a successful add
appends exactly the one new row. -/
theorem claim_C6_add_memory (rows : List MemoryRow)
    (dedup : Option (String → List String → Bool)) (content : String)
    (importance : ImpInput) (turn_number : Nat) (location : String)
    (score moves : Int) :
    (pyStrip content = "" →
      add_memory rows dedup content importance turn_number location score moves
        = (none, rows)) ∧
    (MemReach rows → ∀ r ∈ rows, content = r.content →
      add_memory rows dedup content importance turn_number location score moves
        = (none, rows)) ∧
    (∀ m rows2,
      add_memory rows dedup content importance turn_number location score moves
        = (some m, rows2) →
      rows2 = rows ++ [m] ∧
      m.importance = clamp_importance (parse_importance importance) ∧
      1 ≤ m.importance ∧ m.importance ≤ 1000 ∧
      (importance = ImpInput.invalid → m.importance = 500)) := by
  refine ⟨?_, ?_, ?_⟩
  · intro h
    unfold add_memory
    rw [if_pos h]
  · intro hreach r hr hc
    by_cases hempty : pyStrip content = ""
    · unfold add_memory
      rw [if_pos hempty]
    · have hdup : check_duplicate_memory rows (pyStrip content) = true := by
        unfold check_duplicate_memory
        rw [List.any_eq_true]
        refine ⟨r, hr, ?_⟩
        rw [hc, mem_content_stripped rows hreach r hr]
        exact beq_self_eq_true r.content
      unfold add_memory
      rw [if_neg hempty]
      simp only [hdup, if_true]
  · intro m rows2 h
    rcases add_memory_some rows dedup content importance turn_number location
      _ _ m rows2 h with ⟨hm, hrows⟩
    refine ⟨hrows, ?_, ?_, ?_, ?_⟩
    · rw [hm]
      rfl
    · rw [hm]
      exact (clamp_importance_bounds _).1
    · rw [hm]
      exact (clamp_importance_bounds _).2
    · intro hinv
      rw [hm, hinv]
      show clamp_importance (parse_importance ImpInput.invalid) = 500
      decide

theorem claim_C6_add_memory_witness :
    add_memory [] none "  " ImpInput.invalid 1 "L" 0 0 = (none, []) :=
  (claim_C6_add_memory [] none "  " ImpInput.invalid 1 "L" 0 0).1 (by decide)

/- ===================== C7: importance range invariant ===================== -/

/-- C7 counterexample: one add_memory call stores importance 1, and a single
decay call takes it to 0, so a reachable store violates the claimed
invariant importance in [1,1000]. -/
theorem claim_C7_counterexample :
    MemReach (decay_all_importances mem_demo_store) ∧
    (decay_all_importances mem_demo_store).all
      (fun r => decide (1 ≤ r.importance ∧ r.importance ≤ 1000)) = false := by
  constructor
  · exact MemReach.decay mem_demo_store
      (MemReach.add [] none "a" (ImpInput.int 1) 1 "L" 0 0 MemReach.empty)
  · decide

/-- C7 amended: in every issue store reachable from empty through
add_memory, decay_all_importances and close_memory, each stored importance
lies in [0,1000]; adds establish [1,1000], but decay can truncate a
positive importance to 0 and then leaves it there. -/
theorem claim_C7_importance_range (rows : List MemoryRow) (h : MemReach rows) :
    ∀ r ∈ rows, 0 ≤ r.importance ∧ r.importance ≤ 1000 := by
  induction h with
  | empty => intro r hr; cases hr
  | add rows dedup content importance turn_number location score moves _ ih =>
    intro r hr
    rcases add_memory_mem rows dedup content importance turn_number location
      _ _ r hr with h2 | ⟨h2, _⟩
    · exact ih r h2
    · have hb := clamp_importance_bounds (parse_importance importance)
      rw [h2]
      exact ⟨by omega, hb.2⟩
  | decay rows _ ih =>
    intro r hr
    rcases List.mem_map.mp hr with ⟨r0, hr0, he⟩
    have hb := ih r0 hr0
    rw [← he]
    unfold decayRow
    split_ifs
    · exact decayVal_bounds r0.importance hb.1 hb.2
    · exact hb
  | close rows memory_id _ ih =>
    intro r hr
    rcases List.mem_map.mp hr with ⟨r0, hr0, he⟩
    have hb := ih r0 hr0
    have hi : r.importance = r0.importance := by
      rw [← he]
      split_ifs <;> rfl
    rw [hi]
    exact hb

theorem claim_C7_importance_range_witness :
    0 ≤ mem_demo_row.importance ∧ mem_demo_row.importance ≤ 1000 :=
  claim_C7_importance_range mem_demo_store
    (MemReach.add [] none "a" (ImpInput.int 1) 1 "L" 0 0 MemReach.empty)
    mem_demo_row (by decide)

/- ===================== map store lemmas (C8, C10) ===================== -/

theorem mapstep_result (st : List LocationTransition) (fr toL dir : String)
    (turn : Nat) :
    (record_movement st fr toL dir turn).2 = st ∨
    ((∀ t ∈ st, ¬(t.from_location = fr ∧ t.direction = pyUpper dir)) ∧
      (record_movement st fr toL dir turn).2 =
        st ++ [{ from_location := fr, to_location := toL,
                 direction := pyUpper dir, turn_discovered := turn }]) := by
  unfold record_movement add_map_transition
  by_cases h : st.any
      (fun t => t.from_location == fr && t.direction == pyUpper dir) = true
  · left
    rw [if_pos h]
  · right
    rw [if_neg h]
    refine ⟨?_, rfl⟩
    intro t ht hpair
    apply h
    rw [List.any_eq_true]
    refine ⟨t, ht, ?_⟩
    rw [hpair.1, hpair.2]
    simp

theorem mapstep_mem {a b : List LocationTransition} (h : MapStep a b)
    {t : LocationTransition} (hm : t ∈ a) : t ∈ b := by
  cases h with
  | step fr toL dir turn =>
    rcases mapstep_result a fr toL dir turn with he | ⟨_, he⟩
    · rw [he]
      exact hm
    · rw [he]
      exact List.mem_append_left _ hm

theorem mapstar_mem {a b : List LocationTransition} (h : MapStar a b)
    {t : LocationTransition} (hm : t ∈ a) : t ∈ b := by
  induction h with
  | refl => exact hm
  | tail _ hstep ih => exact mapstep_mem hstep ih

theorem mapstep_pair_stable {a b : List LocationTransition} (h : MapStep a b)
    {tr : LocationTransition} (hmem : tr ∈ a) :
    ∀ t2 ∈ b, t2.from_location = tr.from_location →
      t2.direction = tr.direction → t2 ∈ a := by
  cases h with
  | step fr toL dir turn =>
    rcases mapstep_result a fr toL dir turn with he | ⟨hnone, he⟩
    · rw [he]
      exact fun t2 h2 _ _ => h2
    · rw [he]
      intro t2 h2 hf hd
      rcases List.mem_append.mp h2 with h3 | h3
      · exact h3
      · exfalso
        rw [List.mem_singleton.mp h3] at hf hd
        exact hnone tr hmem ⟨hf.symm, hd.symm⟩

theorem mapstar_pair_stable {a b : List LocationTransition} (h : MapStar a b)
    {tr : LocationTransition} (hmem : tr ∈ a) :
    ∀ t2 ∈ b, t2.from_location = tr.from_location →
      t2.direction = tr.direction → t2 ∈ a := by
  induction h with
  | refl => exact fun t2 h2 _ _ => h2
  | tail hs hstep ih =>
    intro t2 h2 hf hd
    exact ih t2 (mapstep_pair_stable hstep (mapstar_mem hs hmem) t2 h2 hf hd) hf hd

theorem mapstep_pairwise {a b : List LocationTransition} (h : MapStep a b)
    (ha : a.Pairwise
      (fun x y => ¬(x.from_location = y.from_location ∧ x.direction = y.direction))) :
    b.Pairwise
      (fun x y => ¬(x.from_location = y.from_location ∧ x.direction = y.direction)) := by
  cases h with
  | step fr toL dir turn =>
    rcases mapstep_result a fr toL dir turn with he | ⟨hnone, he⟩
    · rw [he]
      exact ha
    · rw [he]
      rw [List.pairwise_append]
      refine ⟨ha, List.pairwise_singleton _ _, ?_⟩
      intro x hx y hy hpair
      rw [List.mem_singleton.mp hy] at hpair
      exact hnone x hx hpair

/-- C8: at most one transition is stored per (from_location, direction): in
every store built from a sequence of record_movement calls, no two listed
transitions share the pair. -/
theorem claim_C8_unique_pair (store : List LocationTransition)
    (h : MapReachable store) :
    (get_all_transitions store).Pairwise
      (fun a b => ¬(a.from_location = b.from_location ∧ a.direction = b.direction)) := by
  show store.Pairwise _
  induction h with
  | refl => exact List.Pairwise.nil
  | tail _ hstep ih => exact mapstep_pairwise hstep ih

theorem claim_C8_unique_pair_witness :
    (get_all_transitions map_demo_store).Pairwise
      (fun a b => ¬(a.from_location = b.from_location ∧ a.direction = b.direction)) :=
  claim_C8_unique_pair map_demo_store
    (MapStar.tail
      (MapStar.tail (MapStar.refl []) (MapStep.step [] "A" "B" "NORTH" 1))
      (MapStep.step (record_movement [] "A" "B" "NORTH" 1).2 "A" "C" "SOUTH" 2))

/- ===================== build_graph lemmas (C10, C1) ===================== -/

theorem dictAppend_edge (g : MapGraph) (k : String) (e : String × String)
    (u d v : String) (h : edgeIn (dictAppend g k e) u d v) :
    edgeIn g u d v ∨ (u = k ∧ (d, v) = e) := by
  induction g with
  | nil =>
    unfold edgeIn adjOf at h
    simp only [dictAppend, glookup] at h
    by_cases hk : k = u
    · rw [if_pos hk] at h
      right
      exact ⟨hk.symm, List.mem_singleton.mp h⟩
    · rw [if_neg hk] at h
      simp at h
  | cons kv rest ih =>
    rcases kv with ⟨k0, v0⟩
    unfold edgeIn adjOf at h ⊢
    simp only [dictAppend] at h
    by_cases hk : k0 = k
    · rw [if_pos hk] at h
      simp only [glookup] at h ⊢
      by_cases hu : k0 = u
      · rw [if_pos hu] at h ⊢
        simp only [Option.getD_some] at h ⊢
        rcases List.mem_append.mp h with h2 | h2
        · exact Or.inl h2
        · right
          exact ⟨by rw [← hu, hk], List.mem_singleton.mp h2⟩
      · rw [if_neg hu] at h ⊢
        exact Or.inl h
    · rw [if_neg hk] at h
      simp only [glookup] at h ⊢
      by_cases hu : k0 = u
      · rw [if_pos hu] at h ⊢
        exact Or.inl h
      · rw [if_neg hu] at h ⊢
        exact ih h

theorem build_graph_fold_edge (ts : List LocationTransition) :
    ∀ (g0 : MapGraph) (u d v : String),
    edgeIn (ts.foldl
      (fun g t =>
        if t.to_location = "BLOCKED" then g
        else dictAppend g t.from_location (t.direction, t.to_location)) g0) u d v →
    edgeIn g0 u d v ∨
      ∃ t ∈ ts, t.from_location = u ∧ t.direction = d ∧ t.to_location = v ∧
        v ≠ "BLOCKED" := by
  induction ts with
  | nil => exact fun g0 u d v h => Or.inl h
  | cons t ts ih =>
    intro g0 u d v h
    rw [List.foldl_cons] at h
    rcases ih _ u d v h with h2 | ⟨t2, ht2, h2⟩
    · by_cases hb : t.to_location = "BLOCKED"
      · rw [if_pos hb] at h2
        exact Or.inl h2
      · rw [if_neg hb] at h2
        rcases dictAppend_edge g0 _ _ u d v h2 with h3 | ⟨h3, h4⟩
        · exact Or.inl h3
        · right
          have hd : d = t.direction := congrArg Prod.fst h4
          have hv : v = t.to_location := congrArg Prod.snd h4
          refine ⟨t, List.mem_cons_self t ts, h3.symm, hd.symm, hv.symm, ?_⟩
          rw [hv]
          exact hb
    · exact Or.inr ⟨t2, List.mem_cons_of_mem t ht2, h2⟩

theorem build_graph_edge_src (ts : List LocationTransition) (u d v : String)
    (h : edgeIn (build_graph ts) u d v) :
    ∃ t ∈ ts, t.from_location = u ∧ t.direction = d ∧ t.to_location = v ∧
      v ≠ "BLOCKED" := by
  rcases build_graph_fold_edge ts [] u d v h with h2 | h2
  · cases h2
  · exact h2

/- ===================== C10: first recorded transition is permanent ===================== -/

/-- C10: once a (from_location, direction) pair is stored, a later
record_movement for the same pair returns False whatever destination it
reports, the store keeps the original row and never gains another row for
the pair; in particular, when the stored destination is the BLOCKED
sentinel, no later sequence of calls puts an edge for that pair into the
graph that find_path searches. -/
theorem claim_C10_first_write_wins (st st2 : List LocationTransition)
    (tr : LocationTransition) (hmem : tr ∈ st) :
    (∀ to2 dir2 turn2, pyUpper dir2 = tr.direction →
      record_movement st tr.from_location to2 dir2 turn2 = (false, st)) ∧
    (MapStar st st2 → tr ∈ st2) ∧
    (MapStar st st2 → ∀ t2 ∈ st2, t2.from_location = tr.from_location →
      t2.direction = tr.direction → t2 ∈ st) ∧
    (tr.to_location = "BLOCKED" →
      (∀ t0 ∈ st, t0.from_location = tr.from_location →
        t0.direction = tr.direction → t0.to_location = "BLOCKED") →
      MapStar st st2 →
      ∀ v, ¬ edgeIn (build_graph st2) tr.from_location tr.direction v) := by
  refine ⟨?_, fun h => mapstar_mem h hmem, fun h => mapstar_pair_stable h hmem, ?_⟩
  · intro to2 dir2 turn2 hdir
    unfold record_movement add_map_transition
    rw [if_pos]
    rw [List.any_eq_true]
    refine ⟨tr, hmem, ?_⟩
    rw [hdir]
    simp
  · intro hb hall hstar v hedge
    rcases build_graph_edge_src st2 _ _ v hedge with ⟨t, ht, hf, hd, htv, hvB⟩
    have ht0 : t ∈ st := mapstar_pair_stable hstar hmem t ht hf hd
    have : t.to_location = "BLOCKED" := hall t ht0 hf hd
    rw [htv] at this
    exact hvB this

theorem claim_C10_first_write_wins_witness :
    record_movement blocked_demo_store "A" "B" "north" 2 = (false, blocked_demo_store) ∧
    ¬ edgeIn (build_graph blocked_demo_store) "A" "NORTH" "B" :=
  ⟨(claim_C10_first_write_wins blocked_demo_store blocked_demo_store
      { from_location := "A", to_location := "BLOCKED", direction := "NORTH",
        turn_discovered := 1 } (by decide)).1 "B" "north" 2 (by decide),
   (claim_C10_first_write_wins blocked_demo_store blocked_demo_store
      { from_location := "A", to_location := "BLOCKED", direction := "NORTH",
        turn_discovered := 1 } (by decide)).2.2.2 (by decide) (by decide)
      (MapStar.refl blocked_demo_store) "B"⟩

/- ===================== BFS auxiliary lemmas (C1) ===================== -/

theorem nodup_snoc {α : Type} (l : List α) (a : α) (h1 : l.Nodup) (h2 : a ∉ l) :
    (l ++ [a]).Nodup := by
  rw [List.nodup_append]
  exact ⟨h1, List.nodup_singleton a,
    fun x hx hxa => h2 (by rwa [List.mem_singleton.mp hxa] at hx)⟩

theorem plookup_mem (par : ParentMap) (key : String) (x : String × String)
    (h : plookup par key = some x) : (key, x.1, x.2) ∈ par := by
  induction par with
  | nil => cases h
  | cons e rest ih =>
    rcases e with ⟨k, d, pr⟩
    simp only [plookup] at h
    by_cases hk : k = key
    · rw [if_pos hk] at h
      injection h with h
      rw [← h, hk]
      exact List.mem_cons_self _ _
    · rw [if_neg hk] at h
      exact List.mem_cons_of_mem _ (ih h)

theorem plookup_none_of_not_key (par : ParentMap) (key : String)
    (h : key ∉ par.map (fun e => e.1)) : plookup par key = none := by
  induction par with
  | nil => rfl
  | cons e rest ih =>
    rcases e with ⟨k, d, pr⟩
    simp only [List.map_cons, List.mem_cons] at h
    push_neg at h
    simp only [plookup]
    rw [if_neg (fun he => h.1 he.symm)]
    exact ih h.2

theorem plookup_append_some (par l2 : ParentMap) (key : String) (x : String × String)
    (h : plookup par key = some x) : plookup (par ++ l2) key = some x := by
  induction par with
  | nil => cases h
  | cons e rest ih =>
    rcases e with ⟨k, d, pr⟩
    simp only [plookup] at h
    simp only [List.cons_append, plookup]
    by_cases hk : k = key
    · rw [if_pos hk] at h ⊢
      exact h
    · rw [if_neg hk] at h ⊢
      exact ih h

theorem plookup_append_none_ne (par : ParentMap) (key n : String) (d c : String)
    (h : plookup par key = none) (hne : n ≠ key) :
    plookup (par ++ [(n, d, c)]) key = none := by
  induction par with
  | nil =>
    simp only [List.nil_append, plookup]
    rw [if_neg hne]
  | cons e rest ih =>
    rcases e with ⟨k, d0, pr⟩
    simp only [plookup] at h
    simp only [List.cons_append, plookup]
    by_cases hk : k = key
    · rw [if_pos hk] at h
      cases h
    · rw [if_neg hk] at h ⊢
      exact ih h

theorem plookup_append_none_eq (par : ParentMap) (n : String) (d c : String)
    (h : plookup par n = none) :
    plookup (par ++ [(n, d, c)]) n = some (d, c) := by
  induction par with
  | nil =>
    simp only [List.nil_append, plookup]
    simp
  | cons e rest ih =>
    rcases e with ⟨k, d0, pr⟩
    simp only [plookup] at h
    simp only [List.cons_append, plookup]
    by_cases hk : k = n
    · rw [if_pos hk] at h
      cases h
    · rw [if_neg hk] at h ⊢
      exact ih h

theorem pchain_append (par l2 : ParentMap) (s v : String) (k : Nat)
    (h : PChain par s v k) : PChain (par ++ l2) s v k := by
  induction h with
  | root => exact PChain.root
  | step hlook _ ih =>
    exact PChain.step (plookup_append_some par l2 _ _ hlook) ih

theorem walk_snoc (g : MapGraph) {s u v d : String} {p : List String}
    (hw : Walk g s u p) (he : edgeIn g u d v) : Walk g s v (p ++ [d]) := by
  induction hw with
  | nil w => exact Walk.cons he (Walk.nil v)
  | cons he0 _ ih => exact Walk.cons he0 (ih he)

theorem walk_boundary (g : MapGraph) (vis : List String) {u w : String}
    {p : List String} (hw : Walk g u w p) (hu : u ∈ vis) (hnw : w ∉ vis) :
    ∃ a b d0 p1 p2, p = p1 ++ d0 :: p2 ∧ Walk g u a p1 ∧ edgeIn g a d0 b ∧
      a ∈ vis ∧ b ∉ vis := by
  induction hw with
  | nil => exact absurd hu hnw
  | cons he hw2 ih =>
    rename_i u0 v0 w0 d0 p0
    by_cases hv : v0 ∈ vis
    · rcases ih hv hnw with ⟨a, b, d1, p1, p2, hp, hwalk, hedge, ha, hb⟩
      exact ⟨a, b, d1, d0 :: p1, p2, by rw [hp]; rfl, Walk.cons he hwalk, hedge, ha, hb⟩
    · exact ⟨u0, v0, d0, [], p0, rfl, Walk.nil u0, he, hu, hv⟩

theorem reconstruct_spec (g : MapGraph) (par : ParentMap) (s : String)
    (hs : plookup par s = none)
    (hpar : ∀ e ∈ par, edgeIn g e.2.2 e.2.1 e.1) {v : String} {k : Nat}
    (hch : PChain par s v k) :
    ∀ fuel, k < fuel →
      Walk g s v (reconstruct par fuel v) ∧ (reconstruct par fuel v).length = k := by
  induction hch with
  | root =>
    intro fuel hfuel
    cases fuel with
    | zero => omega
    | succ m =>
      simp only [reconstruct, hs]
      exact ⟨Walk.nil s, rfl⟩
  | step hlook hch2 ih =>
    rename_i v0 d0 u0 k0
    intro fuel hfuel
    cases fuel with
    | zero => omega
    | succ m =>
      simp only [reconstruct, hlook]
      have hm : k0 < m := by omega
      rcases ih m hm with ⟨hwalk, hlen⟩
      have hedge : edgeIn g u0 d0 v0 := hpar _ (plookup_mem par v0 (d0, u0) hlook)
      refine ⟨walk_snoc g hwalk hedge, ?_⟩
      rw [List.length_append, hlen]
      rfl

/- ===================== BFS invariant lemmas (C1) ===================== -/

theorem bfs_init (g : MapGraph) (s : String) :
    BfsInv g s [s] [s] [] (fun _ => 0) := by
  refine { s_vis := List.mem_singleton_self s,
           vis_nodup := List.nodup_singleton s,
           q_nodup := List.nodup_singleton s,
           q_sub := fun v hv => hv,
           s_no_par := rfl,
           keys_sub := fun e he => absurd he (List.not_mem_nil e),
           keys_nodup := List.nodup_nil,
           par_edge := fun e he => absurd he (List.not_mem_nil e),
           vis_chain := ?_, vis_dist := ?_,
           f_bound := fun v _ => Nat.le_refl 0,
           q_sorted := List.pairwise_singleton _ s,
           q_spread := fun a _ b _ => Nat.le_succ 0,
           processed := ?_ }
  · intro v hv
    rw [List.mem_singleton.mp hv]
    exact PChain.root
  · intro v hv
    rw [List.mem_singleton.mp hv]
    exact ⟨⟨[], Walk.nil s, rfl⟩, fun p _ => Nat.zero_le _⟩
  · intro u hu hq
    exact absurd hu hq

theorem bfs_to_mid (g : MapGraph) (s c : String) (queue visited : List String)
    (par : ParentMap) (f : String → Nat)
    (hinv : BfsInv g s (c :: queue) visited par f) :
    MidInv g s c (adjOf g c) queue visited par f := by
  refine { c_vis := hinv.q_sub c (List.mem_cons_self c queue),
           c_notq := (List.nodup_cons.mp hinv.q_nodup).1,
           s_vis := hinv.s_vis, vis_nodup := hinv.vis_nodup,
           q_nodup := (List.nodup_cons.mp hinv.q_nodup).2,
           q_sub := fun v hv => hinv.q_sub v (List.mem_cons_of_mem c hv),
           s_no_par := hinv.s_no_par, keys_sub := hinv.keys_sub,
           keys_nodup := hinv.keys_nodup, par_edge := hinv.par_edge,
           vis_chain := hinv.vis_chain, vis_dist := hinv.vis_dist,
           f_bound := hinv.f_bound,
           q_bounds := ?_,
           q_sorted := (List.pairwise_cons.mp hinv.q_sorted).2,
           processed_mid := ?_,
           c_rest := fun d v he => Or.inl he,
           rest_sub := fun e he => he }
  · intro a ha
    exact ⟨(List.pairwise_cons.mp hinv.q_sorted).1 a ha,
      hinv.q_spread c (List.mem_cons_self c queue) a (List.mem_cons_of_mem c ha)⟩
  · intro u hu hq hc d v he
    refine hinv.processed u hu ?_ d v he
    intro hmem
    rcases List.mem_cons.mp hmem with h1 | h1
    · exact hc h1
    · exact hq h1

theorem mid_to_bfs (g : MapGraph) (s c : String) (queue visited : List String)
    (par : ParentMap) (f : String → Nat)
    (hmid : MidInv g s c [] queue visited par f) :
    BfsInv g s queue visited par f := by
  refine { s_vis := hmid.s_vis, vis_nodup := hmid.vis_nodup,
           q_nodup := hmid.q_nodup, q_sub := hmid.q_sub,
           s_no_par := hmid.s_no_par, keys_sub := hmid.keys_sub,
           keys_nodup := hmid.keys_nodup, par_edge := hmid.par_edge,
           vis_chain := hmid.vis_chain, vis_dist := hmid.vis_dist,
           f_bound := hmid.f_bound, q_sorted := hmid.q_sorted,
           q_spread := ?_, processed := ?_ }
  · intro a ha b hb
    have h1 := hmid.q_bounds a ha
    have h2 := hmid.q_bounds b hb
    omega
  · intro u hu hq d v he
    by_cases hc : u = c
    · rcases hmid.c_rest d v (by rwa [hc] at he) with h1 | h1
      · cases h1
      · exact h1
    · exact hmid.processed_mid u hu hq hc d v he

theorem mid_process (g : MapGraph) (s c : String) :
    ∀ (rest : Adjacency) (queue visited : List String) (par : ParentMap)
      (f : String → Nat),
      MidInv g s c rest queue visited par f →
      ∃ f2, MidInv g s c []
        (process_neighbors c rest queue visited par).1
        (process_neighbors c rest queue visited par).2.1
        (process_neighbors c rest queue visited par).2.2 f2 := by
  intro rest
  induction rest with
  | nil =>
    intro queue visited par f hmid
    exact ⟨f, hmid⟩
  | cons e rest ih =>
    intro queue visited par f hmid
    rcases e with ⟨d, n⟩
    by_cases hn : n ∈ visited
    · have hred : process_neighbors c ((d, n) :: rest) queue visited par
          = process_neighbors c rest queue visited par := by
        simp [process_neighbors, hn]
      rw [hred]
      refine ih queue visited par f
        { hmid with
          c_rest := ?_,
          rest_sub := fun e he => hmid.rest_sub e (List.mem_cons_of_mem _ he) }
      intro d0 v0 he
      rcases hmid.c_rest d0 v0 he with h1 | h1
      · rcases List.mem_cons.mp h1 with h2 | h2
        · right
          have hv0 : v0 = n := congrArg Prod.snd h2
          rw [hv0]
          exact hn
        · exact Or.inl h2
      · exact Or.inr h1
    · have hred : process_neighbors c ((d, n) :: rest) queue visited par
          = process_neighbors c rest (queue ++ [n]) (visited ++ [n])
              (par ++ [(n, d, c)]) := by
        simp [process_neighbors, hn]
      rw [hred]
      have hcn : c ≠ n := fun he => hn (he ▸ hmid.c_vis)
      have hsn : s ≠ n := fun he => hn (he ▸ hmid.s_vis)
      have hqn : n ∉ queue := fun hq => hn (hmid.q_sub n hq)
      have hkn : n ∉ par.map (fun e => e.1) := by
        intro hk
        rcases List.mem_map.mp hk with ⟨e, hepar, he1⟩
        exact hn (he1 ▸ (hmid.keys_sub e hepar).1)
      have hvis_ne : ∀ x, x ∈ visited → x ≠ n := fun x hx he => hn (he ▸ hx)
      have hedge_cn : edgeIn g c d n := hmid.rest_sub (d, n) (List.mem_cons_self _ _)
      refine ih (queue ++ [n]) (visited ++ [n]) (par ++ [(n, d, c)])
        (fun x => if x = n then f c + 1 else f x) ?_
      have hfx : ∀ x, x ≠ n → (if x = n then f c + 1 else f x) = f x :=
        fun x hx => if_neg hx
      have hfn : (if n = n then f c + 1 else f n) = f c + 1 := if_pos rfl
      have hfc : (if c = n then f c + 1 else f c) = f c := if_neg hcn
      refine { c_vis := List.mem_append_left _ hmid.c_vis,
               c_notq := ?_, s_vis := List.mem_append_left _ hmid.s_vis,
               vis_nodup := nodup_snoc _ _ hmid.vis_nodup hn,
               q_nodup := nodup_snoc _ _ hmid.q_nodup hqn,
               q_sub := ?_, s_no_par := ?_, keys_sub := ?_, keys_nodup := ?_,
               par_edge := ?_, vis_chain := ?_, vis_dist := ?_, f_bound := ?_,
               q_bounds := ?_, q_sorted := ?_, processed_mid := ?_,
               c_rest := ?_, rest_sub := ?_ }
      · intro hc2
        rcases List.mem_append.mp hc2 with h1 | h1
        · exact hmid.c_notq h1
        · exact hcn (List.mem_singleton.mp h1)
      · intro v hv
        rcases List.mem_append.mp hv with h1 | h1
        · exact List.mem_append_left _ (hmid.q_sub v h1)
        · exact List.mem_append_right _ h1
      · exact plookup_append_none_ne par s n d c hmid.s_no_par
          (fun he => hsn he.symm)
      · intro e he
        rcases List.mem_append.mp he with h1 | h1
        · exact ⟨List.mem_append_left _ (hmid.keys_sub e h1).1,
            List.mem_append_left _ (hmid.keys_sub e h1).2⟩
        · rw [List.mem_singleton.mp h1]
          exact ⟨List.mem_append_right _ (List.mem_singleton_self n),
            List.mem_append_left _ hmid.c_vis⟩
      · rw [List.map_append]
        exact nodup_snoc _ _ hmid.keys_nodup hkn
      · intro e he
        rcases List.mem_append.mp he with h1 | h1
        · refine ⟨(hmid.par_edge e h1).1, ?_⟩
          rw [hfx e.1 (hvis_ne e.1 (hmid.keys_sub e h1).1),
            hfx e.2.2 (hvis_ne e.2.2 (hmid.keys_sub e h1).2)]
          exact (hmid.par_edge e h1).2
        · rw [List.mem_singleton.mp h1]
          refine ⟨hedge_cn, ?_⟩
          show (if n = n then f c + 1 else f n) = (if c = n then f c + 1 else f c) + 1
          rw [hfn, hfc]
      · intro v hv
        rcases List.mem_append.mp hv with h1 | h1
        · show PChain (par ++ [(n, d, c)]) s v (if v = n then f c + 1 else f v)
          rw [hfx v (hvis_ne v h1)]
          exact pchain_append par _ s v (f v) (hmid.vis_chain v h1)
        · rw [List.mem_singleton.mp h1]
          show PChain (par ++ [(n, d, c)]) s n (if n = n then f c + 1 else f n)
          rw [hfn]
          exact PChain.step
            (plookup_append_none_eq par n d c (plookup_none_of_not_key par n hkn))
            (pchain_append par _ s c (f c) (hmid.vis_chain c hmid.c_vis))
      · intro v hv
        rcases List.mem_append.mp hv with h1 | h1
        · show IsShortest g s v (if v = n then f c + 1 else f v)
          rw [hfx v (hvis_ne v h1)]
          exact hmid.vis_dist v h1
        · rw [List.mem_singleton.mp h1]
          show IsShortest g s n (if n = n then f c + 1 else f n)
          rw [hfn]
          constructor
          · rcases (hmid.vis_dist c hmid.c_vis).1 with ⟨p, hw, hl⟩
            refine ⟨p ++ [d], walk_snoc g hw hedge_cn, ?_⟩
            rw [List.length_append, hl]
            rfl
          · intro p hw
            rcases walk_boundary g visited hw hmid.s_vis hn with
              ⟨a, b, d0, p1, p2, hp, hw1, he0, ha, hb⟩
            have hfa : f c ≤ f a := by
              by_cases hac : a = c
              · rw [hac]
              · by_cases haq : a ∈ queue
                · exact (hmid.q_bounds a haq).1
                · exact absurd (hmid.processed_mid a ha haq hac d0 b he0) hb
            have hp1 : f a ≤ p1.length := (hmid.vis_dist a ha).2 p1 hw1
            rw [hp, List.length_append, List.length_cons]
            omega
      · intro v hv
        rw [List.length_append]
        rcases List.mem_append.mp hv with h1 | h1
        · rw [hfx v (hvis_ne v h1)]
          have := hmid.f_bound v h1
          omega
        · rw [List.mem_singleton.mp h1, hfn]
          have := hmid.f_bound c hmid.c_vis
          simp only [List.length_singleton]
          omega
      · intro a ha
        rcases List.mem_append.mp ha with h1 | h1
        · rw [hfx a (fun he => hqn (he ▸ h1)), hfc]
          exact hmid.q_bounds a h1
        · rw [List.mem_singleton.mp h1, hfn, hfc]
          omega
      · rw [List.pairwise_append]
        refine ⟨?_, List.pairwise_singleton _ n, ?_⟩
        · refine List.Pairwise.imp_of_mem ?_ hmid.q_sorted
          intro a b ha hb hab
          show (if a = n then f c + 1 else f a) ≤ (if b = n then f c + 1 else f b)
          rw [hfx a (fun he => hqn (he ▸ ha)), hfx b (fun he => hqn (he ▸ hb))]
          exact hab
        · intro a ha b hb
          rw [List.mem_singleton.mp hb]
          show (if a = n then f c + 1 else f a) ≤ (if n = n then f c + 1 else f n)
          rw [hfx a (fun he => hqn (he ▸ ha)), hfn]
          exact (hmid.q_bounds a ha).2
      · intro u hu hq hc2 d0 v0 he
        have hun : u ≠ n := by
          intro he2
          apply hq
          rw [he2]
          exact List.mem_append_right _ (List.mem_singleton_self n)
        have hu2 : u ∈ visited := by
          rcases List.mem_append.mp hu with h1 | h1
          · exact h1
          · exact absurd (List.mem_singleton.mp h1) hun
        have hq2 : u ∉ queue := fun h2 => hq (List.mem_append_left _ h2)
        exact List.mem_append_left _ (hmid.processed_mid u hu2 hq2 hc2 d0 v0 he)
      · intro d0 v0 he
        rcases hmid.c_rest d0 v0 he with h1 | h1
        · rcases List.mem_cons.mp h1 with h2 | h2
          · right
            have hv0 : v0 = n := congrArg Prod.snd h2
            rw [hv0]
            exact List.mem_append_right _ (List.mem_singleton_self n)
          · exact Or.inl h2
        · exact Or.inr (List.mem_append_left _ h1)
      · exact fun e he => hmid.rest_sub e (List.mem_cons_of_mem _ he)

/- ===================== BFS soundness and C1 ===================== -/

theorem bfs_loop_sound (g : MapGraph) (s t : String) :
    ∀ (fuel : Nat) (queue visited : List String) (par : ParentMap)
      (f : String → Nat) (p : List String),
      BfsInv g s queue visited par f →
      bfs_loop g t fuel queue visited par = some p →
      Walk g s t p ∧ IsShortest g s t p.length := by
  intro fuel
  induction fuel with
  | zero =>
    intro queue visited par f p _ heq
    simp [bfs_loop] at heq
  | succ fuel ih =>
    intro queue visited par f p hinv heq
    cases queue with
    | nil => simp [bfs_loop] at heq
    | cons c q =>
      simp only [bfs_loop] at heq
      by_cases hct : c = t
      · rw [if_pos hct] at heq
        injection heq with heq
        have ht_vis : t ∈ visited := by
          rw [← hct]
          exact hinv.q_sub c (List.mem_cons_self c q)
        have hch := hinv.vis_chain t ht_vis
        have hfb : f t < par.length + 1 := Nat.lt_succ_of_le (hinv.f_bound t ht_vis)
        rcases reconstruct_spec g par s hinv.s_no_par
          (fun e he => (hinv.par_edge e he).1) hch (par.length + 1) hfb with ⟨hw, hl⟩
        rw [← heq]
        refine ⟨hw, ?_⟩
        rw [hl]
        exact hinv.vis_dist t ht_vis
      · rw [if_neg hct] at heq
        rcases hPN : process_neighbors c (adjOf g c) q visited par with ⟨q2, vis2, par2⟩
        rw [hPN] at heq
        rcases mid_process g s c (adjOf g c) q visited par f
          (bfs_to_mid g s c q visited par f hinv) with ⟨f2, hmid⟩
        rw [hPN] at hmid
        exact ih q2 vis2 par2 f2 p (mid_to_bfs g s c q2 vis2 par2 f2 hmid) heq

theorem find_path_spec (ts : List LocationTransition) (fromL toL : String)
    (p : List String) (h : find_path ts fromL toL = some p) :
    Walk (build_graph ts) fromL toL p ∧
      IsShortest (build_graph ts) fromL toL p.length := by
  unfold find_path at h
  by_cases he : fromL = toL
  · rw [if_pos he] at h
    injection h with h
    rw [← h, he]
    exact ⟨Walk.nil toL, ⟨[], Walk.nil toL, rfl⟩, fun q _ => Nat.zero_le _⟩
  · rw [if_neg he] at h
    rcases hg : glookup (build_graph ts) fromL with _ | adj
    · rw [hg] at h
      cases h
    · rw [hg] at h
      exact bfs_loop_sound (build_graph ts) fromL toL (ts.length + 1)
        [fromL] [fromL] [] (fun _ => 0) p (bfs_init (build_graph ts) fromL) h

/-- C1: find_path returns the empty sequence (never None) when start and
destination coincide; returns None when the start is missing from the
graph or the destination is unreachable; every returned path is a walk in
the BLOCKED-filtered graph (so it never uses an edge recorded as BLOCKED,
since that graph holds no BLOCKED destination at all) whose length is the
true shortest-walk length; and on the diamond map with two length-2 routes
it returns a path of length 2. -/
theorem claim_C1_find_path (ts : List LocationTransition) (fromL toL : String) :
    find_path ts fromL fromL = some [] ∧
    (fromL ≠ toL → glookup (build_graph ts) fromL = none →
      find_path ts fromL toL = none) ∧
    (fromL ≠ toL → (∀ p, ¬ Walk (build_graph ts) fromL toL p) →
      find_path ts fromL toL = none) ∧
    (∀ p, find_path ts fromL toL = some p →
      Walk (build_graph ts) fromL toL p ∧
        IsShortest (build_graph ts) fromL toL p.length) ∧
    (∀ u d v, edgeIn (build_graph ts) u d v → v ≠ "BLOCKED") ∧
    (find_path diamond_map "A" "D").map List.length = some 2 := by
  refine ⟨?_, ?_, ?_, fun p h => find_path_spec ts fromL toL p h, ?_,
    diamond_path_length⟩
  · unfold find_path
    rw [if_pos rfl]
  · intro hne hlook
    unfold find_path
    rw [if_neg hne, hlook]
  · intro hne hwalk
    rcases hfp : find_path ts fromL toL with _ | p
    · rfl
    · exact absurd (find_path_spec ts fromL toL p hfp).1 (hwalk p)
  · intro u d v he
    rcases build_graph_edge_src ts u d v he with ⟨t, _, _, _, _, hvB⟩
    exact hvB

theorem claim_C1_find_path_witness :
    find_path [] "X" "Y" = none :=
  (claim_C1_find_path [] "X" "Y").2.1 (by decide) rfl
